import Mathlib

/-!
Verification of the semantic search / vector index engine of the
`mcp-server-101` repository (`FaissStore` in
`src/mcp_server/infrastructure/vector/faiss_store.py` and `SearchService`
in `src/mcp_server/usecases/search_service.py`).

The embedding is shallow: the FAISS `IndexIDMap(IndexFlatIP)` index is a
list of `(id, vector)` entries in insertion order, vectors are lists of
rationals (the float components of the source are modelled by `Rat`),
the JSON catalog (`self.meta`) is an insertion-ordered association list,
and the sentence-transformers embedder is an abstract parameter
`emb : String → Vec`.  `FaissStore._vector_id` is modelled bit-exactly:
`uuid.uuid5` is SHA-1 over namespace bytes followed by the UTF-8 name
bytes, with the version/variant bits forced, taken as a big-endian
128-bit integer and reduced modulo `2^63 - 1`.
-/

namespace MCP

/-! ### SHA-1 and uuid5, for `FaissStore._vector_id` -/

/-- 32-bit left rotation on naturals below `2^32`. -/
def rotl (n x : Nat) : Nat := ((x <<< n) ||| (x >>> (32 - n))) % 2 ^ 32

/-- UTF-8 encoding of a string, as Python `str.encode("utf-8")` produces. -/
def utf8Bytes (s : String) : List Nat :=
  s.data.foldr (fun c acc => encChar c ++ acc) []
where
  encChar (c : Char) : List Nat :=
    let n := c.toNat
    if n < 0x80 then [n]
    else if n < 0x800 then
      [0xC0 ||| (n >>> 6), 0x80 ||| (n &&& 0x3F)]
    else if n < 0x10000 then
      [0xE0 ||| (n >>> 12), 0x80 ||| ((n >>> 6) &&& 0x3F), 0x80 ||| (n &&& 0x3F)]
    else
      [0xF0 ||| (n >>> 18), 0x80 ||| ((n >>> 12) &&& 0x3F),
       0x80 ||| ((n >>> 6) &&& 0x3F), 0x80 ||| (n &&& 0x3F)]

/-- SHA-1 padding: append `0x80`, zero bytes up to 56 mod 64, then the
bit length as 8 big-endian bytes. -/
def sha1pad (msg : List Nat) : List Nat :=
  let bitLen := 8 * msg.length
  let zeros := (55 + 64 - msg.length % 64) % 64
  msg ++ [0x80] ++ List.replicate zeros 0 ++
    (List.range 8).map (fun i => (bitLen >>> (8 * (7 - i))) % 256)

/-- Big-endian 4-byte groups to 32-bit words. -/
def bytesToWords : List Nat → List Nat
  | b0 :: b1 :: b2 :: b3 :: rest =>
      ((((b0 <<< 8) ||| b1) <<< 8 ||| b2) <<< 8 ||| b3) :: bytesToWords rest
  | _ => []

/-- Extend the 16-word schedule to 80 words (`fuel` applications). -/
def expandW : Nat → List Nat → List Nat
  | 0, w => w
  | f + 1, w =>
    let i := w.length
    let nw := rotl 1 ((w.getD (i - 3) 0) ^^^ (w.getD (i - 8) 0) ^^^
      (w.getD (i - 14) 0) ^^^ (w.getD (i - 16) 0))
    expandW f (w ++ [nw])

/-- One SHA-1 round: state `(a,b,c,d,e)`, round index `i`, word `w`. -/
def sha1round (st : Nat × Nat × Nat × Nat × Nat) (i w : Nat) :
    Nat × Nat × Nat × Nat × Nat :=
  let (a, b, c, d, e) := st
  let f :=
    if i < 20 then (b &&& c) ||| ((b ^^^ 0xFFFFFFFF) &&& d)
    else if i < 40 then b ^^^ c ^^^ d
    else if i < 60 then (b &&& c) ||| (b &&& d) ||| (c &&& d)
    else b ^^^ c ^^^ d
  let k :=
    if i < 20 then 0x5A827999
    else if i < 40 then 0x6ED9EBA1
    else if i < 60 then 0x8F1BBCDC
    else 0xCA62C1D6
  let temp := (rotl 5 a + f + e + k + w) % 2 ^ 32
  (temp, a, rotl 30 b, c, d)

/-- Process one 64-byte block. -/
def sha1block (h : Nat × Nat × Nat × Nat × Nat) (block : List Nat) :
    Nat × Nat × Nat × Nat × Nat :=
  let w := expandW 64 (bytesToWords block)
  let (h0, h1, h2, h3, h4) := h
  let (a, b, c, d, e) :=
    (List.range 80).foldl (fun st i => sha1round st i (w.getD i 0))
      (h0, h1, h2, h3, h4)
  ((h0 + a) % 2 ^ 32, (h1 + b) % 2 ^ 32, (h2 + c) % 2 ^ 32,
   (h3 + d) % 2 ^ 32, (h4 + e) % 2 ^ 32)

/-- Split into 64-byte chunks (`fuel` bounds the recursion depth). -/
def chunks : Nat → List Nat → List (List Nat)
  | 0, _ => []
  | _ + 1, [] => []
  | f + 1, l@(_ :: _) => l.take 64 :: chunks f (l.drop 64)

/-- SHA-1 digest (20 bytes) of a byte list. -/
def sha1 (msg : List Nat) : List Nat :=
  let padded := sha1pad msg
  let (h0, h1, h2, h3, h4) :=
    (chunks padded.length padded).foldl sha1block
      (0x67452301, 0xEFCDAB89, 0x98BADCFE, 0x10325476, 0xC3D2E1F0)
  [h0, h1, h2, h3, h4].foldr
    (fun h acc => [(h >>> 24) % 256, (h >>> 16) % 256, (h >>> 8) % 256, h % 256] ++ acc) []

/-- `uuid.uuid5(namespace, name)` as 16 bytes: SHA-1 of namespace bytes
followed by name bytes, truncated to 16 bytes, with the version forced
to 5 in byte 6 and the RFC 4122 variant forced in byte 8. -/
def uuid5Bytes (ns name : List Nat) : List Nat :=
  ((sha1 (ns ++ name)).take 16).enum.map fun p =>
    if p.1 = 6 then (p.2 &&& 0x0F) ||| 0x50
    else if p.1 = 8 then (p.2 &&& 0x3F) ||| 0x80
    else p.2

/-- Big-endian bytes to a natural number (`UUID.int`). -/
def bytesToNat (bs : List Nat) : Nat := bs.foldl (fun acc b => acc * 256 + b) 0

/-- `uuid.NAMESPACE_DNS` = 6ba7b810-9dad-11d1-80b4-00c04fd430c8. -/
def namespaceDNS : List Nat :=
  [0x6b, 0xa7, 0xb8, 0x10, 0x9d, 0xad, 0x11, 0xd1,
   0x80, 0xb4, 0x00, 0xc0, 0x4f, 0xd4, 0x30, 0xc8]

/-- The two embedded entity kinds (`VectorTarget = Literal["resource", "tool"]`). -/
inductive VTarget
  | resource
  | tool
deriving DecidableEq, Repr

/-- The literal string of a `VTarget`. -/
def VTarget.name : VTarget → String
  | .resource => "resource"
  | .tool => "tool"

/-- `FaissStore._vector_id`:
`uuid.uuid5(uuid.uuid5(NAMESPACE_DNS, f"smart-mcp::{item_type}"), entity_id).int % (2**63 - 1)`. -/
def vectorId (t : VTarget) (e : String) : Nat :=
  let ns := uuid5Bytes namespaceDNS (utf8Bytes ("smart-mcp::" ++ t.name))
  bytesToNat (uuid5Bytes ns (utf8Bytes e)) % (2 ^ 63 - 1)

/-! ### The FAISS store state

`FaissStore.index` is `faiss.IndexIDMap(faiss.IndexFlatIP(dim))`: a bag of
`(int64 id, vector)` pairs in insertion order, searched by inner product.
`FaissStore.meta` is a JSON-backed Python dict mapping `str(vector_id)` to
`{"type": ..., "entity_id": ...}`; dict keys are unique and decimal string
encoding of the id is injective, so the model keys the association list by
the numeric id itself and keeps insertion order like a Python dict. -/

/-- A vector: the float components of the source are modelled by `Rat`. -/
abbrev Vec := List Rat

/-- Inner product, the `IndexFlatIP` metric. -/
def ip (a b : Vec) : Rat := (List.zipWith (· * ·) a b).sum

/-- One `(id, vector)` association held by the FAISS `IndexIDMap`. -/
structure IdxEntry where
  id : Nat
  vec : Vec
deriving DecidableEq, Repr

/-- The catalog: `str(vector_id) ↦ {"type", "entity_id"}`, keyed here by
the numeric id (see the section comment). -/
abbrev Meta := List (Nat × VTarget × String)

/-- In-memory state of a `FaissStore`: the FAISS index and the catalog. -/
structure Store where
  index : List IdxEntry
  meta : Meta
deriving DecidableEq, Repr

/-- `index.remove_ids(ids)`: drops every vector whose id is listed;
a no-op for ids that are absent. -/
def removeIds (ids : List Nat) (idx : List IdxEntry) : List IdxEntry :=
  idx.filter (fun en => !(ids.contains en.id))

/-- Python dict assignment `meta[k] = v`: update in place if the key is
present, else append (insertion order preserved). -/
def metaSet (m : Meta) (k : Nat) (v : VTarget × String) : Meta :=
  match m with
  | [] => [(k, v)]
  | (k2, v2) :: rest =>
    if k2 = k then (k, v) :: rest else (k2, v2) :: metaSet rest k v

/-- Python `meta.pop(k, None)`: remove the entry under the key if present
(dict keys are unique, so this is a filter); no-op otherwise. -/
def metaPop (m : Meta) (k : Nat) : Meta :=
  m.filter (fun p => !(p.1 == k))

/-- Python `meta.get(k)`. -/
def metaGet (m : Meta) (k : Nat) : Option (VTarget × String) :=
  match m with
  | [] => none
  | (k2, v) :: rest => if k2 = k then some v else metaGet rest k

/-- `FaissStore.add_or_update(item_type, entity_id, text)`: derive the
vector id, remove any existing vector under it, embed the text, add the
new vector under the id, record the catalog entry.  (`emb` is the
sentence-transformers embedder, abstract here.) -/
def addOrUpdate (emb : String → Vec) (s : Store) (t : VTarget) (e text : String) :
    Store :=
  let vid := vectorId t e
  { index := removeIds [vid] s.index ++ [⟨vid, emb text⟩]
    meta := metaSet s.meta vid (t, e) }

/-- `FaissStore.delete(item_type, entity_id)`: derive the vector id,
remove it from the index, pop it from the catalog. -/
def deleteKey (s : Store) (t : VTarget) (e : String) : Store :=
  let vid := vectorId t e
  { index := removeIds [vid] s.index
    meta := metaPop s.meta vid }

/-! ### Search -/

/-- `index.search(query_vec, k)` on `IndexIDMap(IndexFlatIP)`: rank all
stored vectors by descending inner product with the query (stable order
among ties), return the first `k` as `(score, id)` slots; when fewer than
`k` vectors are stored the remaining slots carry the sentinel id `-1`
(their score is irrelevant downstream, modelled as `0`). -/
def idxSearch (idx : List IdxEntry) (q : Vec) (k : Nat) : List (Rat × Int) :=
  let ranked :=
    (idx.map (fun en => (ip q en.vec, (en.id : Int)))).mergeSort
      (fun a b => decide (b.1 ≤ a.1))
  let top := ranked.take k
  top ++ List.replicate (k - top.length) (0, -1)

/-- One iteration of the result-building loop of `FaissStore.search`:
`continue` on the sentinel id `-1`, `continue` when the catalog has no
entry for the id, `continue` when a type filter is set and differs from
the type in the entry, otherwise emit `(entity_id, score, type)`. -/
def hitOf (m : Meta) (ft : Option VTarget) (p : Rat × Int) :
    Option (String × Rat × VTarget) :=
  if p.2 = -1 then none
  else
    match metaGet m p.2.toNat, ft with
    | none, _ => none
    | some (t, e), none => some (e, p.1, t)
    | some (t, e), some t0 => if t0 = t then some (e, p.1, t) else none

/-- The result-building loop of `FaissStore.search` over the candidate
slots, in order. -/
def resolveHits (m : Meta) (ft : Option VTarget) (l : List (Rat × Int)) :
    List (String × Rat × VTarget) :=
  l.filterMap (hitOf m ft)

/-- `FaissStore.search(query, limit, item_type)`: empty index short-circuits
to `[]`; otherwise embed the query, fetch `limit` slots from the index and
run the result-building loop. -/
def storeSearch (emb : String → Vec) (s : Store) (query : String) (limit : Nat)
    (ft : Option VTarget) : List (String × Rat × VTarget) :=
  if s.index.length = 0 then []
  else resolveHits s.meta ft (idxSearch s.index (emb query) limit)

/-! ### Durability

`add_or_update` and `delete` both end with `self._persist_index(...)`
followed by `self._persist_meta()`: two separate synchronous full rewrites,
index strictly first.  A crash can therefore expose three durable states:
before either write, after the index write only, and after both. -/

/-- Durable states reachable if the process crashes during
`add_or_update` (start state `s` assumed in sync with disk). -/
def upsertDurables (emb : String → Vec) (s : Store) (t : VTarget) (e text : String) :
    List Store :=
  let s2 := addOrUpdate emb s t e text
  [s, ⟨s2.index, s.meta⟩, s2]

/-- The durable state after `delete` has persisted the index but not yet
the catalog. -/
def deleteMid (s : Store) (t : VTarget) (e : String) : Store :=
  ⟨(deleteKey s t e).index, s.meta⟩

/-- Durable states reachable if the process crashes during `delete`. -/
def deleteDurables (s : Store) (t : VTarget) (e : String) : List Store :=
  [s, deleteMid s t e, deleteKey s t e]

/-- No orphan catalog entries: every catalog key has a vector in the index. -/
def noOrphans (s : Store) : Prop :=
  ∀ p ∈ s.meta, ∃ en ∈ s.index, en.id = p.1

/-- Index and catalog in lockstep: an id is stored in the index iff the
catalog has an entry under it. -/
def lockstep (s : Store) : Prop :=
  ∀ n : Nat, (∃ en ∈ s.index, en.id = n) ↔ metaGet s.meta n ≠ none

/-- Catalog well-formedness: every entry sits under the vector id derived
from its own `(type, entity_id)` — true of every catalog populated through
`add_or_update`. -/
def metaWF (m : Meta) : Prop :=
  ∀ p ∈ m, p.1 = vectorId p.2.1 p.2.2

/-! ### `SearchService` (`usecases/search_service.py`)

`SearchTarget = Literal["resource", "tool", "prompt"]`.  Resources and
tools are resolved post-hoc through repository `get`; prompts are searched
by case-insensitive substring over name, content and tags.  Resource and
tool payloads are opaque to the search logic and stay abstract types. -/

/-- `SearchTarget`. -/
inductive SearchTarget
  | resource
  | tool
  | prompt
deriving DecidableEq, Repr

/-- The kind of a vector hit, as a `SearchTarget`. -/
def VTarget.toTarget : VTarget → SearchTarget
  | .resource => .resource
  | .tool => .tool

/-- A prompt, with the fields `SearchService.search` reads (`id`, `name`,
`content`, `tags`; `role` and timestamps are never consulted). -/
structure Prompt where
  id : String
  name : String
  content : String
  tags : List String
deriving DecidableEq, Repr

/-- A `SearchResult` payload: a resource, a tool, or a prompt. -/
inductive Payload (R T : Type)
  | ofRes (r : R)
  | ofTool (t : T)
  | ofPrompt (p : Prompt)
deriving DecidableEq

/-- `SearchResult`. -/
structure SearchResult (R T : Type) where
  id : String
  type : SearchTarget
  score : Rat
  payload : Payload R T
deriving DecidableEq

/-- Python `needle in hay` on lists of characters: contiguous substring. -/
def occursIn (needle : List Char) : List Char → Bool
  | [] => needle.isEmpty
  | c :: hs => leadsList needle (c :: hs) || occursIn needle hs
where
  leadsList : List Char → List Char → Bool
    | [], _ => true
    | _ :: _, [] => false
    | a :: as, b :: bs => a == b && leadsList as bs

/-- Python `str.lower()`, per character. -/
def lowered (s : String) : List Char := s.data.map Char.toLower

/-- The keyword condition of `SearchService.search`: the lowered query is
a substring of the lowered name of the prompt, content, or any lowered tag. -/
def promptMatch (query : String) (p : Prompt) : Bool :=
  occursIn (lowered query) (lowered p.name) ||
  occursIn (lowered query) (lowered p.content) ||
  p.tags.any (fun tag => occursIn (lowered query) (lowered tag))

/-- One iteration of the payload-resolution loop over vector hits:
`payload = resources.get(id) if type == "resource" else tools.get(id)`,
emitting a `SearchResult` when the entity still resolves and dropping the
hit otherwise. -/
def payloadOf {R T : Type} (resources : String → Option R)
    (tools : String → Option T) (h : String × Rat × VTarget) :
    Option (SearchResult R T) :=
  match h.2.2 with
  | .resource =>
    (resources h.1).map (fun r => ⟨h.1, .resource, h.2.1, .ofRes r⟩)
  | .tool =>
    (tools h.1).map (fun r => ⟨h.1, .tool, h.2.1, .ofTool r⟩)

/-- The payload-resolution loop over the vector hits, in order. -/
def resolvePayloads {R T : Type} (resources : String → Option R)
    (tools : String → Option T) (l : List (String × Rat × VTarget)) :
    List (SearchResult R T) :=
  l.filterMap (payloadOf resources tools)

/-- `item_type=target if target in ("resource", "tool") else None`. -/
def targetToV : Option SearchTarget → Option VTarget
  | some .resource => some .resource
  | some .tool => some .tool
  | _ => none

/-- The un-truncated, unsorted candidate list built by
`SearchService.search`: vector hits (when `target` is unset or an embedded
kind) followed by keyword prompt hits at fixed score `0.5` (when `target`
is unset or `"prompt"`). -/
def svcCandidates {R T : Type} (emb : String → Vec) (vs : Store)
    (resources : String → Option R) (tools : String → Option T)
    (prompts : List Prompt) (query : String) (target : Option SearchTarget)
    (limit : Nat) : List (SearchResult R T) :=
  (if target = none ∨ target = some .resource ∨ target = some .tool then
    resolvePayloads resources tools
      (storeSearch emb vs query limit (targetToV target))
  else []) ++
  (if target = none ∨ target = some .prompt then
    (prompts.filter (promptMatch query)).map
      (fun p => ⟨p.id, .prompt, 1 / 2, Payload.ofPrompt p⟩)
  else [])

/-- `SearchService.search(query, target, limit)`:
`sorted(results, key=lambda r: r.score, reverse=True)[:limit]` — a stable
descending sort of the candidates, truncated to `limit`. -/
def svcSearch {R T : Type} (emb : String → Vec) (vs : Store)
    (resources : String → Option R) (tools : String → Option T)
    (prompts : List Prompt) (query : String) (target : Option SearchTarget)
    (limit : Nat) : List (SearchResult R T) :=
  ((svcCandidates emb vs resources tools prompts query target limit).mergeSort
    (fun a b => decide (b.score ≤ a.score))).take limit

/-! ### Helper lemmas about the catalog operations -/

theorem metaGet_metaSet (m : Meta) (k : Nat) (v : VTarget × String) (n : Nat) :
    metaGet (metaSet m k v) n = if k = n then some v else metaGet m n := by
  induction m with
  | nil => simp [metaSet, metaGet]
  | cons hd tl ih =>
    obtain ⟨k2, v2⟩ := hd
    by_cases h2 : k2 = k
    · subst h2
      simp only [metaSet, if_pos rfl, metaGet]
      by_cases hn : k2 = n <;> simp [hn]
    · simp only [metaSet, if_neg h2, metaGet]
      by_cases hn : k2 = n
      · subst hn
        have hk : ¬ k = k2 := fun h => h2 h.symm
        simp [hk]
      · simp [hn, ih]

theorem metaGet_metaPop (m : Meta) (k n : Nat) :
    metaGet (metaPop m k) n = if k = n then none else metaGet m n := by
  induction m with
  | nil => simp [metaPop, metaGet]
  | cons hd tl ih =>
    obtain ⟨k2, v2⟩ := hd
    by_cases h2 : k2 = k
    · subst h2
      by_cases hn : k2 = n
      · subst hn
        simpa [metaPop, metaGet] using ih
      · simpa [metaPop, metaGet, hn] using ih
    · by_cases hn : k2 = n
      · subst hn
        have hk : ¬ k = k2 := fun h => h2 h.symm
        simp [metaPop, metaGet, h2, hk]
      · simpa [metaPop, metaGet, h2, hn] using ih

theorem mem_metaSet (m : Meta) (k : Nat) (v : VTarget × String)
    (p : Nat × VTarget × String) (hp : p ∈ metaSet m k v) :
    p = (k, v) ∨ p ∈ m := by
  induction m with
  | nil => simpa [metaSet] using hp
  | cons hd tl ih =>
    obtain ⟨k2, v2⟩ := hd
    by_cases h2 : k2 = k
    · subst h2
      rcases (by simpa [metaSet] using hp : p = (k2, v) ∨ p ∈ tl) with h | h
      · exact Or.inl (by simpa using h)
      · exact Or.inr (List.mem_cons_of_mem _ h)
    · rcases (by simpa [metaSet, h2] using hp : p = (k2, v2) ∨ p ∈ metaSet tl k v) with h | h
      · exact Or.inr (by simp [h])
      · rcases ih h with h3 | h3
        · exact Or.inl h3
        · exact Or.inr (List.mem_cons_of_mem _ h3)

theorem mem_metaPop (m : Meta) (k : Nat) (p : Nat × VTarget × String)
    (hp : p ∈ metaPop m k) : p ∈ m ∧ p.1 ≠ k := by
  have := List.mem_filter.mp hp
  refine ⟨this.1, ?_⟩
  simpa using this.2

theorem metaWF_metaSet {m : Meta} (h : metaWF m) (t : VTarget) (e : String) :
    metaWF (metaSet m (vectorId t e) (t, e)) := by
  intro p hp
  rcases mem_metaSet _ _ _ _ hp with h2 | h2
  · subst h2; rfl
  · exact h p h2

theorem metaWF_metaPop {m : Meta} (h : metaWF m) (k : Nat) :
    metaWF (metaPop m k) := by
  intro p hp
  exact h p (mem_metaPop _ _ _ hp).1

theorem metaGet_mem {m : Meta} {n : Nat} {v : VTarget × String}
    (h : metaGet m n = some v) : (n, v) ∈ m := by
  induction m with
  | nil => simp [metaGet] at h
  | cons hd tl ih =>
    obtain ⟨k2, v2⟩ := hd
    by_cases h2 : k2 = n
    · subst h2
      have : v2 = v := by simpa [metaGet] using h
      simp [this]
    · simp only [metaGet, if_neg h2] at h
      exact List.mem_cons_of_mem _ (ih h)

/-! ### Helper lemmas about the index operations -/

theorem mem_removeIds {ids : List Nat} {idx : List IdxEntry} {en : IdxEntry} :
    en ∈ removeIds ids idx ↔ en ∈ idx ∧ en.id ∉ ids := by
  simp [removeIds, List.mem_filter]

theorem filter_removeIds_self (vid : Nat) (idx : List IdxEntry) :
    (removeIds [vid] idx).filter (fun en => en.id == vid) = [] := by
  rw [List.filter_eq_nil_iff]
  intro en hen
  have := mem_removeIds.mp hen
  simpa using this.2

/-- After `add_or_update`, the index holds exactly one vector under the
key id: the embedding of the new text. -/
theorem addOrUpdate_filter_id (emb : String → Vec) (s : Store) (t : VTarget)
    (e text : String) :
    (addOrUpdate emb s t e text).index.filter
      (fun en => en.id == vectorId t e) = [⟨vectorId t e, emb text⟩] := by
  simp [addOrUpdate, List.filter_append, filter_removeIds_self]

/-! ### Helper lemmas about the search pipeline -/

theorem hitOf_eq_some {m : Meta} {ft : Option VTarget} {p : Rat × Int}
    {y : String × Rat × VTarget} (h : hitOf m ft p = some y) :
    p.2 ≠ -1 ∧ y.2.1 = p.1 ∧ metaGet m p.2.toNat = some (y.2.2, y.1) ∧
      ∀ t0, ft = some t0 → t0 = y.2.2 := by
  by_cases hs : p.2 = -1
  · simp [hitOf, hs] at h
  · refine ⟨hs, ?_⟩
    rcases hget : metaGet m p.2.toNat with _ | ⟨t, e⟩
    · simp [hitOf, hs, hget] at h
    · rcases ft with _ | t0
      · have hy : y = (e, p.1, t) := by simpa [hitOf, hs, hget] using h.symm
        subst hy
        simp [hget]
      · by_cases hft : t0 = t
        · have hy : y = (e, p.1, t) := by
            simpa [hitOf, hs, hget, hft] using h.symm
          subst hy
          simp [hget, hft]
        · simp [hitOf, hs, hget, hft] at h

theorem mem_resolveHits {m : Meta} {ft : Option VTarget}
    {l : List (Rat × Int)} {y : String × Rat × VTarget}
    (hy : y ∈ resolveHits m ft l) :
    ∃ vid : Int, (y.2.1, vid) ∈ l ∧ vid ≠ -1 ∧
      metaGet m vid.toNat = some (y.2.2, y.1) ∧
      ∀ t0, ft = some t0 → t0 = y.2.2 := by
  obtain ⟨p, hp, hf⟩ := List.mem_filterMap.mp hy
  obtain ⟨hs, hsc, hget, hft⟩ := hitOf_eq_some hf
  refine ⟨p.2, ?_, hs, hget, hft⟩
  rw [hsc]
  simpa using hp

theorem resolveHits_append (m : Meta) (ft : Option VTarget)
    (l1 l2 : List (Rat × Int)) :
    resolveHits m ft (l1 ++ l2) = resolveHits m ft l1 ++ resolveHits m ft l2 := by
  simp [resolveHits]

theorem resolveHits_sentinel (m : Meta) (ft : Option VTarget) (n : Nat)
    (sc : Rat) : resolveHits m ft (List.replicate n (sc, -1)) = [] := by
  induction n with
  | zero => simp [resolveHits]
  | succ n ih =>
    rw [List.replicate_succ, resolveHits, List.filterMap_cons]
    simp only [hitOf, if_pos rfl]
    exact ih

theorem resolveHits_length (m : Meta) (ft : Option VTarget)
    (l : List (Rat × Int)) : (resolveHits m ft l).length ≤ l.length :=
  List.length_filterMap_le _ _

theorem resolveHits_pairwise {m : Meta} {ft : Option VTarget}
    {l : List (Rat × Int)}
    (hl : l.Pairwise (fun a b => b.1 ≤ a.1)) :
    (resolveHits m ft l).Pairwise (fun a b => b.2.1 ≤ a.2.1) := by
  refine List.Pairwise.filterMap (hitOf m ft) ?_ hl
  intro a b hab c hc d hd
  obtain ⟨_, hc2, _⟩ := hitOf_eq_some (by simpa using hc)
  obtain ⟨_, hd2, _⟩ := hitOf_eq_some (by simpa using hd)
  rw [hc2, hd2]
  exact hab

theorem idxSearch_length (idx : List IdxEntry) (q : Vec) (k : Nat) :
    (idxSearch idx q k).length = k := by
  simp only [idxSearch, List.length_append, List.length_replicate,
    List.length_take, List.length_mergeSort, List.length_map]
  omega

theorem idxSearch_top_pairwise (idx : List IdxEntry) (q : Vec) (k : Nat) :
    (((idx.map (fun en => (ip q en.vec, (en.id : Int)))).mergeSort
      (fun a b => decide (b.1 ≤ a.1))).take k).Pairwise
      (fun a b : Rat × Int => b.1 ≤ a.1) := by
  have hs := @List.sorted_mergeSort _
    (fun a b : Rat × Int => decide (b.1 ≤ a.1))
    (fun a b c hab hbc => by
      simp only [decide_eq_true_eq] at hab hbc ⊢
      exact le_trans hbc hab)
    (fun a b => by
      simpa using le_total b.1 a.1)
    (idx.map (fun en => (ip q en.vec, (en.id : Int))))
  have hs2 : ((idx.map (fun en => (ip q en.vec, (en.id : Int)))).mergeSort
      (fun a b => decide (b.1 ≤ a.1))).Pairwise (fun a b : Rat × Int => b.1 ≤ a.1) := by
    refine hs.imp ?_
    intro a b h
    simpa using h
  exact hs2.sublist (List.take_sublist _ _)

theorem mem_idxSearch_top {idx : List IdxEntry} {q : Vec} {k : Nat}
    {p : Rat × Int}
    (hp : p ∈ ((idx.map (fun en => (ip q en.vec, (en.id : Int)))).mergeSort
      (fun a b => decide (b.1 ≤ a.1))).take k) :
    ∃ en ∈ idx, p = (ip q en.vec, (en.id : Int)) := by
  have := (List.take_sublist _ _).subset hp
  rw [List.mem_mergeSort] at this
  obtain ⟨en, hen, hp2⟩ := List.mem_map.mp this
  exact ⟨en, hen, hp2.symm⟩

/-- Every hit of `FaissStore.search` respects the type filter, resolves
through the catalog, and carries the inner product of the query embedding
with a vector stored in the index under the resolving id. -/
theorem mem_storeSearch {emb : String → Vec} {s : Store} {q : String}
    {k : Nat} {ft : Option VTarget} {y : String × Rat × VTarget}
    (hy : y ∈ storeSearch emb s q k ft) :
    (∀ t0, ft = some t0 → t0 = y.2.2) ∧
    ∃ en ∈ s.index, metaGet s.meta en.id = some (y.2.2, y.1) ∧
      y.2.1 = ip (emb q) en.vec := by
  unfold storeSearch at hy
  split at hy
  · simp at hy
  · obtain ⟨vid, hmem, hs, hget, hft⟩ := mem_resolveHits hy
    refine ⟨hft, ?_⟩
    simp only [idxSearch] at hmem
    rcases List.mem_append.mp hmem with h | h
    · obtain ⟨en, hen, hp⟩ := mem_idxSearch_top h
      obtain ⟨h1, h2⟩ := Prod.mk.injEq .. ▸ hp
      refine ⟨en, hen, ?_, h1⟩
      rwa [h2, Int.toNat_ofNat] at hget
    · have h2 := List.eq_of_mem_replicate h
      rw [Prod.mk.injEq] at h2
      exact absurd h2.2 hs

/-- `FaissStore.search` returns at most `k` results. -/
theorem storeSearch_length (emb : String → Vec) (s : Store) (q : String)
    (k : Nat) (ft : Option VTarget) :
    (storeSearch emb s q k ft).length ≤ k := by
  unfold storeSearch
  split
  · simp
  · exact (resolveHits_length _ _ _).trans (le_of_eq (idxSearch_length _ _ _))

/-- `FaissStore.search` results are sorted by descending score. -/
theorem storeSearch_pairwise (emb : String → Vec) (s : Store) (q : String)
    (k : Nat) (ft : Option VTarget) :
    (storeSearch emb s q k ft).Pairwise (fun a b => b.2.1 ≤ a.2.1) := by
  unfold storeSearch
  split
  · simp
  · simp only [idxSearch]
    rw [resolveHits_append, resolveHits_sentinel, List.append_nil]
    exact resolveHits_pairwise (idxSearch_top_pairwise _ _ _)

/-- Searching a store that holds exactly one vector returns exactly that
entity (for any `k ≥ 1`, no type filter). -/
theorem storeSearch_single (emb : String → Vec) (n : Nat) (v : Vec)
    (t : VTarget) (e q : String) (k : Nat) (hk : 1 ≤ k) :
    storeSearch emb ⟨[⟨n, v⟩], [(n, t, e)]⟩ q k none =
      [(e, ip (emb q) v, t)] := by
  unfold storeSearch
  rw [if_neg (by simp)]
  simp only [idxSearch, List.map_cons, List.map_nil, List.mergeSort_singleton]
  rw [List.take_of_length_le (by simpa using hk)]
  rw [resolveHits_append, resolveHits_sentinel, List.append_nil]
  simp only [resolveHits, List.filterMap_cons, List.filterMap_nil, hitOf]
  rw [if_neg (by omega)]
  simp [metaGet]

-- The two-stage uuid5 hash separates a resource and a tool that share
-- the textual id "x" (computed values: 7473889876744330793 and
-- 7038335639346088974).
set_option maxRecDepth 10000 in
theorem vid_res_x_ne_vid_tool_x :
    vectorId .resource "x" ≠ vectorId .tool "x" := by decide

/-! ### Helper lemmas about `SearchService` -/

theorem payloadOf_eq_some {R T : Type} {resources : String → Option R}
    {tools : String → Option T} {h : String × Rat × VTarget}
    {r : SearchResult R T} (hr : payloadOf resources tools h = some r) :
    r.id = h.1 ∧ r.score = h.2.1 ∧ r.type = h.2.2.toTarget := by
  rcases h with ⟨e, sc, t⟩
  cases t
  · rcases hres : resources e with _ | pl
    · simp [payloadOf, hres] at hr
    · have : r = ⟨e, .resource, sc, .ofRes pl⟩ := by
        simpa [payloadOf, hres] using hr.symm
      subst this
      simp [VTarget.toTarget]
  · rcases hres : tools e with _ | pl
    · simp [payloadOf, hres] at hr
    · have : r = ⟨e, .tool, sc, .ofTool pl⟩ := by
        simpa [payloadOf, hres] using hr.symm
      subst this
      simp [VTarget.toTarget]

theorem mem_resolvePayloads {R T : Type} {resources : String → Option R}
    {tools : String → Option T} {l : List (String × Rat × VTarget)}
    {r : SearchResult R T} (hr : r ∈ resolvePayloads resources tools l) :
    ∃ h ∈ l, r.id = h.1 ∧ r.score = h.2.1 ∧ r.type = h.2.2.toTarget := by
  obtain ⟨h, hmem, hsome⟩ := List.mem_filterMap.mp hr
  exact ⟨h, hmem, payloadOf_eq_some hsome⟩

theorem resolvePayloads_no_prompt {R T : Type} {resources : String → Option R}
    {tools : String → Option T} {l : List (String × Rat × VTarget)}
    {r : SearchResult R T} (hr : r ∈ resolvePayloads resources tools l) :
    r.type ≠ .prompt := by
  obtain ⟨h, _, _, _, htype⟩ := mem_resolvePayloads hr
  rw [htype]
  cases h.2.2 <;> simp [VTarget.toTarget]

/-- Every candidate of `SearchService.search` with kind `prompt` carries
the fixed keyword score `0.5`. -/
theorem svcCandidates_prompt_score {R T : Type} (emb : String → Vec)
    (vs : Store) (resources : String → Option R) (tools : String → Option T)
    (prompts : List Prompt) (query : String) (target : Option SearchTarget)
    (limit : Nat) :
    ∀ r ∈ svcCandidates emb vs resources tools prompts query target limit,
      r.type = .prompt → r.score = 1 / 2 := by
  intro r hr htype
  rcases List.mem_append.mp hr with h | h
  · split at h
    · exact absurd htype (resolvePayloads_no_prompt h)
    · simp at h
  · split at h
    · obtain ⟨p, _, hp⟩ := List.mem_map.mp h
      rw [← hp]
    · simp at h

theorem svcCandidates_sorted_take {R T : Type} (emb : String → Vec)
    (vs : Store) (resources : String → Option R) (tools : String → Option T)
    (prompts : List Prompt) (query : String) (target : Option SearchTarget)
    (limit : Nat) :
    (svcSearch emb vs resources tools prompts query target limit).Pairwise
      (fun a b => b.score ≤ a.score) := by
  have hs := @List.sorted_mergeSort _
    (fun a b : SearchResult R T => decide (b.score ≤ a.score))
    (fun a b c hab hbc => by
      simp only [decide_eq_true_eq] at hab hbc ⊢
      exact le_trans hbc hab)
    (fun a b => by simpa using le_total b.score a.score)
    (svcCandidates emb vs resources tools prompts query target limit)
  have hs2 : ((svcCandidates emb vs resources tools prompts query target
      limit).mergeSort (fun a b => decide (b.score ≤ a.score))).Pairwise
      (fun a b : SearchResult R T => b.score ≤ a.score) := by
    refine hs.imp ?_
    intro a b h
    simpa using h
  exact hs2.sublist (List.take_sublist _ _)

theorem mem_svcSearch {R T : Type} {emb : String → Vec} {vs : Store}
    {resources : String → Option R} {tools : String → Option T}
    {prompts : List Prompt} {query : String} {target : Option SearchTarget}
    {limit : Nat} {r : SearchResult R T}
    (hr : r ∈ svcSearch emb vs resources tools prompts query target limit) :
    r ∈ svcCandidates emb vs resources tools prompts query target limit := by
  have := (List.take_sublist _ _).subset hr
  rwa [List.mem_mergeSort] at this

/-! ### Helper lemmas about the lockstep invariant and durability -/

theorem lockstep_addOrUpdate {s : Store} (emb : String → Vec) (t : VTarget)
    (e text : String) (h : lockstep s) :
    lockstep (addOrUpdate emb s t e text) := by
  intro n
  simp only [addOrUpdate]
  rw [metaGet_metaSet]
  by_cases hn : vectorId t e = n
  · subst hn
    simp only [if_pos rfl]
    constructor
    · intro _
      simp
    · intro _
      exact ⟨⟨vectorId t e, emb text⟩, by simp, rfl⟩
  · rw [if_neg hn, ← h n]
    constructor
    · rintro ⟨en, hen, hid⟩
      rcases List.mem_append.mp hen with h2 | h2
      · exact ⟨en, (mem_removeIds.mp h2).1, hid⟩
      · rw [List.mem_singleton] at h2
        subst h2
        exact absurd hid hn
    · rintro ⟨en, hen, hid⟩
      refine ⟨en, List.mem_append.mpr (Or.inl (mem_removeIds.mpr ⟨hen, ?_⟩)), hid⟩
      rw [List.mem_singleton, hid]
      exact fun hh => hn hh.symm

theorem lockstep_deleteKey {s : Store} (t : VTarget) (e : String)
    (h : lockstep s) : lockstep (deleteKey s t e) := by
  intro n
  simp only [deleteKey]
  rw [metaGet_metaPop]
  by_cases hn : vectorId t e = n
  · subst hn
    simp only [if_pos rfl]
    constructor
    · rintro ⟨en, hen, hid⟩
      have h2 := (mem_removeIds.mp hen).2
      rw [List.mem_singleton, hid] at h2
      exact absurd rfl h2
    · intro hc
      exact absurd rfl hc
  · rw [if_neg hn, ← h n]
    constructor
    · rintro ⟨en, hen, hid⟩
      exact ⟨en, (mem_removeIds.mp hen).1, hid⟩
    · rintro ⟨en, hen, hid⟩
      refine ⟨en, mem_removeIds.mpr ⟨hen, ?_⟩, hid⟩
      rw [List.mem_singleton, hid]
      exact fun hh => hn hh.symm

theorem noOrphans_deleteKey {s : Store} (t : VTarget) (e : String)
    (h : noOrphans s) : noOrphans (deleteKey s t e) := by
  intro p hp
  obtain ⟨hmem, hkey⟩ := mem_metaPop _ _ _ hp
  obtain ⟨en, hen, hid⟩ := h p hmem
  refine ⟨en, mem_removeIds.mpr ⟨hen, ?_⟩, hid⟩
  rw [List.mem_singleton, hid]
  exact hkey

theorem noOrphans_upsert_mid {s : Store} (emb : String → Vec) (t : VTarget)
    (e text : String) (h : noOrphans s) :
    noOrphans ⟨(addOrUpdate emb s t e text).index, s.meta⟩ := by
  intro p hp
  by_cases hk : p.1 = vectorId t e
  · exact ⟨⟨vectorId t e, emb text⟩, by simp [addOrUpdate], hk.symm⟩
  · obtain ⟨en, hen, hid⟩ := h p hp
    refine ⟨en, ?_, hid⟩
    simp only [addOrUpdate]
    refine List.mem_append.mpr (Or.inl (mem_removeIds.mpr ⟨hen, ?_⟩))
    rw [List.mem_singleton, hid]
    exact hk

theorem noOrphans_addOrUpdate {s : Store} (emb : String → Vec) (t : VTarget)
    (e text : String) (h : noOrphans s) :
    noOrphans (addOrUpdate emb s t e text) := by
  intro p hp
  rcases mem_metaSet _ _ _ _ hp with h2 | h2
  · subst h2
    exact ⟨⟨vectorId t e, emb text⟩, by simp [addOrUpdate], rfl⟩
  · exact noOrphans_upsert_mid emb t e text h p h2

/-- Removing one id from the index leaves the vectors stored under any
other id untouched. -/
theorem filter_removeIds_other {vidA vidB : Nat} (hne : vidB ≠ vidA)
    (idx : List IdxEntry) :
    (removeIds [vidA] idx).filter (fun en => en.id == vidB) =
      idx.filter (fun en => en.id == vidB) := by
  rw [removeIds, List.filter_filter]
  refine List.filter_congr ?_
  intro en _
  by_cases hb : en.id = vidB
  · have ha : ¬ en.id = vidA := by
      rw [hb]
      exact hne
    simp [hb, ha, hne]
  · simp [beq_false_of_ne hb]

/-! ### The claims -/

/-- C10: for every entity type and entity id, `_vector_id` returns an
integer in `[0, 2^63 - 2]`: non-negative, strictly below the signed
64-bit bound required for FAISS ids, and never the sentinel `-1` that
`search` skips, so no stored vector is silently unreachable. -/
theorem vectorId_int64_range (t : VTarget) (e : String) :
    vectorId t e ≤ 2 ^ 63 - 2 ∧ 0 ≤ vectorId t e ∧
      ((vectorId t e : Int) ≠ -1) := by
  have h : vectorId t e < 2 ^ 63 - 1 := by
    unfold vectorId
    exact Nat.mod_lt _ (by norm_num)
  refine ⟨by omega, Nat.zero_le _, by omega⟩

/-- C8: `FaissStore.search` with type filter `"resource"` returns only
resource hits and never a tool hit, and symmetrically with filter
`"tool"` it never returns a resource hit. -/
theorem type_filter_exclusive (emb : String → Vec) (s : Store) (q : String)
    (k : Nat) :
    (∀ y ∈ storeSearch emb s q k (some .resource), y.2.2 = .resource) ∧
    (∀ y ∈ storeSearch emb s q k (some .tool), y.2.2 = .tool) := by
  constructor <;> intro y hy <;> exact ((mem_storeSearch hy).1 _ rfl).symm

/-- C3: for every query, `k` and optional type filter, `FaissStore.search`
fetches exactly `k` candidate slots from the index over the embedded
query, and its result drops every id without a catalog entry, respects
the type filter, has at most `k` entries, is sorted by descending score,
and each hit carries the inner product of the query embedding with a
vector stored in the index whose id resolves to the hit through the
catalog. -/
theorem search_pipeline_contract (emb : String → Vec) (s : Store)
    (q : String) (k : Nat) (ft : Option VTarget) :
    (idxSearch s.index (emb q) k).length = k ∧
    (storeSearch emb s q k ft).length ≤ k ∧
    (storeSearch emb s q k ft).Pairwise (fun a b => b.2.1 ≤ a.2.1) ∧
    ∀ y ∈ storeSearch emb s q k ft,
      (∀ t0, ft = some t0 → t0 = y.2.2) ∧
      ∃ en ∈ s.index, metaGet s.meta en.id = some (y.2.2, y.1) ∧
        y.2.1 = ip (emb q) en.vec := by
  exact ⟨idxSearch_length _ _ _, storeSearch_length emb s q k ft,
    storeSearch_pairwise emb s q k ft, fun y hy => mem_storeSearch hy⟩

/-- C4: starting from a state where every id stored in the index has a
matching catalog entry and vice versa, both `add_or_update` and `delete`
preserve that lockstep invariant. -/
theorem mutations_preserve_lockstep (emb : String → Vec) (s : Store)
    (t : VTarget) (e text : String) (h : lockstep s) :
    lockstep (addOrUpdate emb s t e text) ∧ lockstep (deleteKey s t e) :=
  ⟨lockstep_addOrUpdate emb t e text h, lockstep_deleteKey t e h⟩

/-- C4 witness: the invariant holds of the empty store and is preserved by
a concrete upsert and delete. -/
theorem mutations_preserve_lockstep_check :
    lockstep ⟨[], []⟩ ∧
    (lockstep (addOrUpdate (fun _ => [1]) ⟨[], []⟩ .resource "a" "hello") ∧
      lockstep (deleteKey ⟨[], []⟩ .resource "a")) :=
  ⟨fun n => by simp [metaGet],
    mutations_preserve_lockstep (fun _ => [1]) ⟨[], []⟩ .resource "a" "hello"
      (fun n => by simp [metaGet])⟩

/-- C9: `delete` removes the vector of the key and catalog entry, so matching
searches no longer return the entity, and it is idempotent: deleting the
same key again is a no-op on both index and catalog.  The hypothesis says
every catalog entry sits under the id derived from its own key, which is
true of any catalog populated through `add_or_update`. -/
theorem delete_removes_idempotent (emb : String → Vec) (s : Store)
    (t : VTarget) (e : String) (hwf : metaWF s.meta) :
    deleteKey (deleteKey s t e) t e = deleteKey s t e ∧
    (∀ en ∈ (deleteKey s t e).index, en.id ≠ vectorId t e) ∧
    metaGet (deleteKey s t e).meta (vectorId t e) = none ∧
    ∀ q k ft, ∀ y ∈ storeSearch emb (deleteKey s t e) q k ft,
      ¬ (y.1 = e ∧ y.2.2 = t) := by
  refine ⟨?_, ?_, ?_, ?_⟩
  · simp [deleteKey, removeIds, metaPop, List.filter_filter, Store.mk.injEq]
  · intro en hen
    have h2 := (mem_removeIds.mp hen).2
    rw [List.mem_singleton] at h2
    exact h2
  · simp only [deleteKey]
    rw [metaGet_metaPop, if_pos rfl]
  · intro q k ft y hy hye
    obtain ⟨_, en, hen, hget, _⟩ := mem_storeSearch hy
    rw [hye.1, hye.2] at hget
    simp only [deleteKey] at hget
    rw [metaGet_metaPop] at hget
    by_cases hvid : vectorId t e = en.id
    · rw [if_pos hvid] at hget
      exact absurd hget (by simp)
    · rw [if_neg hvid] at hget
      exact hvid ((hwf _ (metaGet_mem hget)).symm)

/-- C9 witness: a concrete well-formed store (one upserted resource). -/
theorem delete_removes_idempotent_check :
    metaWF (addOrUpdate (fun _ => [1]) ⟨[], []⟩ .resource "a" "hello").meta ∧
    (deleteKey (deleteKey (addOrUpdate (fun _ => [1]) ⟨[], []⟩ .resource "a"
        "hello") .resource "a") .resource "a" =
      deleteKey (addOrUpdate (fun _ => [1]) ⟨[], []⟩ .resource "a" "hello")
        .resource "a" ∧
    (∀ en ∈ (deleteKey (addOrUpdate (fun _ => [1]) ⟨[], []⟩ .resource "a"
        "hello") .resource "a").index, en.id ≠ vectorId .resource "a") ∧
    metaGet (deleteKey (addOrUpdate (fun _ => [1]) ⟨[], []⟩ .resource "a"
        "hello") .resource "a").meta (vectorId .resource "a") = none ∧
    ∀ q k ft, ∀ y ∈ storeSearch (fun _ => [1])
        (deleteKey (addOrUpdate (fun _ => [1]) ⟨[], []⟩ .resource "a"
          "hello") .resource "a") q k ft,
      ¬ (y.1 = "a" ∧ y.2.2 = .resource)) :=
  ⟨by
    intro p hp
    have : p = (vectorId .resource "a", VTarget.resource, "a") := by
      simpa [addOrUpdate, metaSet] using hp
    rw [this],
   delete_removes_idempotent (fun _ => [1]) _ .resource "a"
    (by
      intro p hp
      have : p = (vectorId .resource "a", VTarget.resource, "a") := by
        simpa [addOrUpdate, metaSet] using hp
      rw [this])⟩

/-- C2 counterexample: the claim fails for `delete`.  Starting from the
concrete orphan-free store produced by upserting resource `"a"`, a crash
after `delete` has persisted the index but before it has persisted the
catalog leaves a durable catalog entry whose vector id is absent from the
durable index. -/
theorem delete_crash_orphan_found :
    noOrphans (addOrUpdate (fun _ => [1]) ⟨[], []⟩ .resource "a" "hello") ∧
    deleteMid (addOrUpdate (fun _ => [1]) ⟨[], []⟩ .resource "a" "hello")
        .resource "a" ∈
      deleteDurables (addOrUpdate (fun _ => [1]) ⟨[], []⟩ .resource "a"
        "hello") .resource "a" ∧
    ¬ noOrphans (deleteMid (addOrUpdate (fun _ => [1]) ⟨[], []⟩ .resource
        "a" "hello") .resource "a") := by
  refine ⟨?_, by simp [deleteDurables], ?_⟩
  · intro p hp
    have hpe : p = (vectorId .resource "a", VTarget.resource, "a") := by
      simpa [addOrUpdate, metaSet] using hp
    exact ⟨⟨vectorId .resource "a", [1]⟩, by simp [addOrUpdate, removeIds],
      by rw [hpe]⟩
  · intro h
    obtain ⟨en, hen, _⟩ :=
      h (vectorId .resource "a", VTarget.resource, "a")
        (by simp [deleteMid, addOrUpdate, metaSet])
    simp [deleteMid, deleteKey, addOrUpdate, removeIds] at hen

/-- C2 amended: both mutations persist the index strictly before the
catalog; for `add_or_update` this means no crash point between the writes
leaves a durable catalog entry whose vector id is absent from the durable
index, and after a completed `delete` the durable state is likewise
orphan-free — but a crash between the two writes of `delete` can leave a stale
catalog entry (which `search` tolerates by dropping it). -/
theorem persist_order_noOrphans (emb : String → Vec) (s : Store)
    (t : VTarget) (e text : String) (h : noOrphans s) :
    (∀ d ∈ upsertDurables emb s t e text, noOrphans d) ∧
    noOrphans (deleteKey s t e) := by
  refine ⟨?_, noOrphans_deleteKey t e h⟩
  intro d hd
  simp only [upsertDurables, List.mem_cons, List.mem_singleton,
    List.not_mem_nil, or_false] at hd
  rcases hd with hd | hd | hd
  · rw [hd]
    exact h
  · rw [hd]
    exact noOrphans_upsert_mid emb t e text h
  · rw [hd]
    exact noOrphans_addOrUpdate emb t e text h

/-- C2 amended witness: starting from the empty store. -/
theorem persist_order_noOrphans_check :
    noOrphans ⟨[], []⟩ ∧
    ((∀ d ∈ upsertDurables (fun _ => [1]) ⟨[], []⟩ .resource "a" "hello",
        noOrphans d) ∧
      noOrphans (deleteKey ⟨[], []⟩ .resource "a")) :=
  ⟨fun p hp => absurd hp (by simp),
   persist_order_noOrphans (fun _ => [1]) ⟨[], []⟩ .resource "a" "hello"
    (fun p hp => absurd hp (by simp))⟩

/-- C1: upserting the same `(type, entity_id)` twice leaves exactly one
vector in the index under the vector id of that key — the embedding of the
second text — so every search hit for that entity carries a score derived
from the second text, never the first; and concretely, from an empty
store the double upsert makes any search (no filter, `k ≥ 1`) return
exactly that entity scored against the second text. -/
theorem upsert_replaces_slot (emb : String → Vec) (s : Store) (t : VTarget)
    (e t1 t2 q : String) (k : Nat) (ft : Option VTarget)
    (hwf : metaWF s.meta) (hk : 1 ≤ k) :
    ((addOrUpdate emb (addOrUpdate emb s t e t1) t e t2).index.filter
      (fun en => en.id == vectorId t e) = [⟨vectorId t e, emb t2⟩]) ∧
    (∀ y ∈ storeSearch emb (addOrUpdate emb (addOrUpdate emb s t e t1) t e
        t2) q k ft, y.1 = e → y.2.2 = t → y.2.1 = ip (emb q) (emb t2)) ∧
    storeSearch emb (addOrUpdate emb (addOrUpdate emb ⟨[], []⟩ t e t1) t e
        t2) q k none = [(e, ip (emb q) (emb t2), t)] := by
  refine ⟨addOrUpdate_filter_id emb _ t e t2, ?_, ?_⟩
  · intro y hy hy1 hy2
    obtain ⟨_, en, hen, hget, hsc⟩ := mem_storeSearch hy
    rw [hy1, hy2] at hget
    have hwf2 : metaWF (addOrUpdate emb (addOrUpdate emb s t e t1) t e
        t2).meta := by
      simp only [addOrUpdate]
      exact metaWF_metaSet (metaWF_metaSet hwf t e) t e
    have hid : en.id = vectorId t e := hwf2 _ (metaGet_mem hget)
    have hmem : en ∈ (addOrUpdate emb (addOrUpdate emb s t e t1) t e
        t2).index.filter (fun en => en.id == vectorId t e) :=
      List.mem_filter.mpr ⟨hen, by simp [hid]⟩
    rw [addOrUpdate_filter_id emb _ t e t2, List.mem_singleton] at hmem
    rw [hsc, hmem]
  · have hs2 : addOrUpdate emb (addOrUpdate emb ⟨[], []⟩ t e t1) t e t2 =
        ⟨[⟨vectorId t e, emb t2⟩], [(vectorId t e, t, e)]⟩ := by
      simp [addOrUpdate, removeIds, metaSet]
    rw [hs2]
    exact storeSearch_single emb _ _ t e q k hk

/-- C1 witness: empty start, two texts, `k = 1`. -/
theorem upsert_replaces_slot_check :
    metaWF (Store.mk [] []).meta ∧ 1 ≤ 1 ∧
    (((addOrUpdate (fun _ => [1]) (addOrUpdate (fun _ => [1]) ⟨[], []⟩
        .resource "a" "one") .resource "a" "two").index.filter
      (fun en => en.id == vectorId .resource "a") =
        [⟨vectorId .resource "a", [1]⟩]) ∧
    (∀ y ∈ storeSearch (fun _ => [1]) (addOrUpdate (fun _ => [1])
        (addOrUpdate (fun _ => [1]) ⟨[], []⟩ .resource "a" "one")
        .resource "a" "two") "q" 1 none,
      y.1 = "a" → y.2.2 = .resource → y.2.1 = ip [1] [1]) ∧
    storeSearch (fun _ => [1]) (addOrUpdate (fun _ => [1]) (addOrUpdate
        (fun _ => [1]) ⟨[], []⟩ .resource "a" "one") .resource "a" "two")
        "q" 1 none = [("a", ip [1] [1], .resource)]) :=
  ⟨fun p hp => absurd hp (by simp), le_refl 1,
   upsert_replaces_slot (fun _ => [1]) ⟨[], []⟩ .resource "a" "one" "two"
    "q" 1 none (fun p hp => absurd hp (by simp)) (le_refl 1)⟩

/-- C5: a resource and a tool sharing the textual id `"x"` receive
distinct vector ids from the two-stage hash; deleting one leaves the
index vectors and catalog entry of the other untouched, and in the concrete
scenario (tool `"x"` and resource `"x"` upserted, resource deleted) the
tool is still returned by search. -/
theorem kind_namespace_separation (emb : String → Vec) (s : Store)
    (q tt rt : String) (k : Nat) (hk : 1 ≤ k) :
    vectorId .resource "x" ≠ vectorId .tool "x" ∧
    ((deleteKey s .resource "x").index.filter
        (fun en => en.id == vectorId .tool "x") =
      s.index.filter (fun en => en.id == vectorId .tool "x")) ∧
    metaGet (deleteKey s .resource "x").meta (vectorId .tool "x") =
      metaGet s.meta (vectorId .tool "x") ∧
    ((deleteKey s .tool "x").index.filter
        (fun en => en.id == vectorId .resource "x") =
      s.index.filter (fun en => en.id == vectorId .resource "x")) ∧
    metaGet (deleteKey s .tool "x").meta (vectorId .resource "x") =
      metaGet s.meta (vectorId .resource "x") ∧
    storeSearch emb (deleteKey (addOrUpdate emb (addOrUpdate emb ⟨[], []⟩
        .tool "x" tt) .resource "x" rt) .resource "x") q k none =
      [("x", ip (emb q) (emb tt), .tool)] := by
  have hne := vid_res_x_ne_vid_tool_x
  refine ⟨hne, ?_, ?_, ?_, ?_, ?_⟩
  · exact filter_removeIds_other (Ne.symm hne) s.index
  · simp only [deleteKey]
    rw [metaGet_metaPop, if_neg hne]
  · exact filter_removeIds_other hne s.index
  · simp only [deleteKey]
    rw [metaGet_metaPop, if_neg (Ne.symm hne)]
  · have hs3 : deleteKey (addOrUpdate emb (addOrUpdate emb ⟨[], []⟩ .tool
        "x" tt) .resource "x" rt) .resource "x" =
        ⟨[⟨vectorId .tool "x", emb tt⟩],
          [(vectorId .tool "x", VTarget.tool, "x")]⟩ := by
      simp [addOrUpdate, deleteKey, removeIds, metaSet, metaPop, hne,
        Ne.symm hne]
    rw [hs3]
    exact storeSearch_single emb _ _ .tool "x" q k hk

/-- C5 witness: arbitrary store instantiated empty, `k = 1`. -/
theorem kind_namespace_separation_check :
    1 ≤ 1 ∧
    (vectorId .resource "x" ≠ vectorId .tool "x" ∧
    ((deleteKey ⟨[], []⟩ .resource "x").index.filter
        (fun en => en.id == vectorId .tool "x") =
      (Store.mk [] []).index.filter (fun en => en.id == vectorId .tool "x")) ∧
    metaGet (deleteKey ⟨[], []⟩ .resource "x").meta (vectorId .tool "x") =
      metaGet (Store.mk [] []).meta (vectorId .tool "x") ∧
    ((deleteKey ⟨[], []⟩ .tool "x").index.filter
        (fun en => en.id == vectorId .resource "x") =
      (Store.mk [] []).index.filter
        (fun en => en.id == vectorId .resource "x")) ∧
    metaGet (deleteKey ⟨[], []⟩ .tool "x").meta (vectorId .resource "x") =
      metaGet (Store.mk [] []).meta (vectorId .resource "x") ∧
    storeSearch (fun _ => [1]) (deleteKey (addOrUpdate (fun _ => [1])
        (addOrUpdate (fun _ => [1]) ⟨[], []⟩ .tool "x" "tool text")
        .resource "x" "resource text") .resource "x") "q" 1 none =
      [("x", ip [1] [1], .tool)]) :=
  ⟨le_refl 1,
   kind_namespace_separation (fun _ => [1]) ⟨[], []⟩ "q" "tool text"
    "resource text" 1 (le_refl 1)⟩

/-- C6: merged `SearchService.search` (target unset) returns at most
`limit` results, sorted by descending score, over the merge of vector
hits with keyword prompt hits whose fixed score is `0.5`. -/
theorem merged_search_contract {R T : Type} (emb : String → Vec)
    (vs : Store) (resources : String → Option R) (tools : String → Option T)
    (prompts : List Prompt) (query : String) (limit : Nat) :
    (svcSearch emb vs resources tools prompts query none limit).length ≤
      limit ∧
    (svcSearch emb vs resources tools prompts query none limit).Pairwise
      (fun a b => b.score ≤ a.score) ∧
    ∀ r ∈ svcSearch emb vs resources tools prompts query none limit,
      r.type = .prompt → r.score = 1 / 2 := by
  refine ⟨List.length_take_le _ _,
    svcCandidates_sorted_take emb vs resources tools prompts query none
      limit, ?_⟩
  intro r hr
  exact svcCandidates_prompt_score emb vs resources tools prompts query
    none limit r (mem_svcSearch hr)

theorem promptMatch_iff (query : String) (p : Prompt) :
    promptMatch query p = true ↔
      (occursIn (lowered query) (lowered p.name) = true ∨
       occursIn (lowered query) (lowered p.content) = true ∨
       ∃ tag ∈ p.tags, occursIn (lowered query) (lowered tag) = true) := by
  simp [promptMatch, List.any_eq_true, or_assoc]

/-- C7: with target unset or `"prompt"`, a prompt appears among the
candidate results iff the query occurs case-insensitively in its name,
its content, or one of its tags — and every prompt hit carries the fixed
keyword score `0.5`. -/
theorem prompt_keyword_filter {R T : Type} (emb : String → Vec)
    (vs : Store) (resources : String → Option R) (tools : String → Option T)
    (prompts : List Prompt) (query : String) (target : Option SearchTarget)
    (limit : Nat) (htarget : target = none ∨ target = some .prompt) :
    (∀ p ∈ prompts,
      ((⟨p.id, .prompt, 1 / 2, .ofPrompt p⟩ : SearchResult R T) ∈
          svcCandidates emb vs resources tools prompts query target limit ↔
        (occursIn (lowered query) (lowered p.name) = true ∨
         occursIn (lowered query) (lowered p.content) = true ∨
         ∃ tag ∈ p.tags, occursIn (lowered query) (lowered tag) = true))) ∧
    ∀ r ∈ svcCandidates emb vs resources tools prompts query target limit,
      r.type = .prompt → r.score = 1 / 2 := by
  refine ⟨?_, svcCandidates_prompt_score emb vs resources tools prompts
    query target limit⟩
  intro p hp
  rw [← promptMatch_iff]
  constructor
  · intro hmem
    rcases List.mem_append.mp hmem with h | h
    · exfalso
      split at h
      · exact resolvePayloads_no_prompt h rfl
      · simp at h
    · rw [if_pos htarget] at h
      obtain ⟨p2, hp2, heq⟩ := List.mem_map.mp h
      have hpp : p2 = p := by
        have := congrArg SearchResult.payload heq
        simpa [Payload.ofPrompt.injEq] using this
      subst hpp
      exact (List.mem_filter.mp hp2).2
  · intro hmatch
    refine List.mem_append.mpr (Or.inr ?_)
    rw [if_pos htarget]
    exact List.mem_map.mpr ⟨p, List.mem_filter.mpr ⟨hp, hmatch⟩, rfl⟩

/-- C7 witness: one prompt whose content contains the query, target
`"prompt"`. -/
theorem prompt_keyword_filter_check :
    ((some SearchTarget.prompt : Option SearchTarget) = none ∨
      (some SearchTarget.prompt : Option SearchTarget) =
        some SearchTarget.prompt) ∧
    ((∀ p ∈ [Prompt.mk "p1" "Greeting" "hello world" ["tag"]],
      ((⟨p.id, .prompt, 1 / 2, .ofPrompt p⟩ : SearchResult Unit Unit) ∈
          svcCandidates (fun _ => [1]) ⟨[], []⟩ (fun _ => none)
            (fun _ => none) [Prompt.mk "p1" "Greeting" "hello world"
            ["tag"]] "hello" (some .prompt) 5 ↔
        (occursIn (lowered "hello") (lowered p.name) = true ∨
         occursIn (lowered "hello") (lowered p.content) = true ∨
         ∃ tag ∈ p.tags, occursIn (lowered "hello") (lowered tag) = true))) ∧
    ∀ r ∈ svcCandidates (fun _ => [1]) ⟨[], []⟩
        (fun _ => (none : Option Unit)) (fun _ => (none : Option Unit))
        [Prompt.mk "p1" "Greeting" "hello world" ["tag"]] "hello"
        (some .prompt) 5,
      r.type = .prompt → r.score = 1 / 2) :=
  ⟨Or.inr rfl,
   prompt_keyword_filter (fun _ => [1]) ⟨[], []⟩ (fun _ => none)
    (fun _ => none) [Prompt.mk "p1" "Greeting" "hello world" ["tag"]]
    "hello" (some .prompt) 5 (Or.inr rfl)⟩

end MCP
